import Mathlib

set_option maxHeartbeats 1000000

/-!
Shallow embedding of the MockaMint studio core: the export workflow of
src/export.js (`initexport` / `startexport` and its interval ticker) and the
generation workflow, bundle ledger and price parsing of src/app.js.

Timers and animation frames are modelled by passing the sequence of values
the callbacks observe (random draws for the export ticker, elapsed
milliseconds for the generation frame loop); DOM writes are dropped and
dispatched events are returned as data.
-/

/-- A downloadable file descriptor synthesized by the export workflow
(src/export.js lines 270-274): one entry per product/format pair. -/
structure ExportFile where
  product : String
  format : String
  filename : String
  deriving DecidableEq

/-- The options object passed to `startexport` (src/export.js line 249).
A field is `none` when the corresponding key is absent (JS `undefined`). -/
structure ExportOptions where
  products : Option (List String)
  formats : Option (List String)
  deriving DecidableEq

/-- The UI selection state `startexport` falls back to: the product-card
selection set and the checked file-format checkboxes
(src/export.js lines 44 and 183-191). -/
structure ExportUI where
  selectedProducts : List String
  selectedFormats : List String
  deriving DecidableEq

/-- `options.products || Array.from(selectedProducts)` (src/export.js
line 266): a present products key is used as-is, because a JS array is
truthy even when empty; an absent key falls back to the UI selection. -/
def resolvedProducts (ui : ExportUI) (opts : ExportOptions) : List String :=
  opts.products.getD ui.selectedProducts

/-- `options.formats && options.formats.length ? options.formats :
getSelectedFormats()` (src/export.js line 267): the formats key is used only
when present and non-empty; otherwise the checked formats are used. -/
def resolvedFormats (ui : ExportUI) (opts : ExportOptions) : List String :=
  match opts.formats with
  | some fs => if fs.isEmpty then ui.selectedFormats else fs
  | none => ui.selectedFormats

/-- The file generation plan (src/export.js lines 270-274): the nested
`products.forEach` / `formats.forEach` loops push one file per
product/format pair, in product-major order, with filename
`` `${p}.${f}` ``. -/
def buildFiles (products formats : List String) : List ExportFile :=
  products.flatMap fun p => formats.map fun f =>
    { product := p, format := f, filename := p ++ "." ++ f }

/-- The summary attached to the `mm:export:complete` detail
(src/export.js lines 294-299). -/
structure ExportSummary where
  productCount : Nat
  fileCount : Nat
  formats : List String
  deriving DecidableEq

/-- The `mm:export:complete` event detail, which is also the value the
promise returned by `startexport` resolves with (src/export.js
lines 292-323). -/
structure CompleteDetail where
  files : List ExportFile
  summary : ExportSummary
  deriving DecidableEq

/-- The `setInterval` tick body of `startexport` (src/export.js
lines 277-302), driven by the list of per-tick increments
`Math.ceil(Math.random() * 15)`.  Each tick sets
`percent = Math.min(100, percent + step)`, emits the new percent as an
`mm:export:progress` event, and once `percent >= 100` clears the interval
(so later steps are never observed).  Returns the emitted percents and
whether the run completed within the given steps. -/
def runTicks (percent : Nat) : List Nat → List Nat × Bool
  | [] => ([], false)
  | s :: rest =>
    if 100 ≤ min 100 (percent + s) then ([min 100 (percent + s)], true)
    else (min 100 (percent + s) :: (runTicks (min 100 (percent + s)) rest).1,
          (runTicks (min 100 (percent + s)) rest).2)

/-- `startexport(options)` (src/export.js lines 249-327): resolves products
and formats, builds the file plan, runs the interval ticker over the given
step draws and, if the ticker reaches 100, resolves the promise with the
files plus the summary `{productCount, fileCount, formats}`. -/
def startexport (ui : ExportUI) (opts : ExportOptions) (steps : List Nat) :
    List Nat × Option CompleteDetail :=
  let products := resolvedProducts ui opts
  let formats := resolvedFormats ui opts
  let files := buildFiles products formats
  let r := runTicks 0 steps
  (r.1,
   if r.2 then
     some { files := files,
            summary := { productCount := products.length,
                         fileCount := files.length,
                         formats := formats } }
   else none)

/-- Outcome of one call to the function returned by `initexport`: the
emitted progress percents, the promise state (`none` = never resolved,
`some none` = resolved with `null`, `some (some d)` = resolved with the
complete detail `d`), and whether a `console.warn` diagnostic was
emitted. -/
structure StartOutcome where
  emitted : List Nat
  outcome : Option (Option CompleteDetail)
  warned : Bool
  deriving DecidableEq

/-- `initexport` (src/export.js lines 10-29 and 335): when the
`[data-mm-export-start]` or `[data-mm-export-options]` anchor is missing,
the returned start function is `noopStart`, which warns and resolves
immediately with `null`; otherwise the real `startexport` runs. -/
def initexport (hasStartEl hasOptionsEl : Bool) (ui : ExportUI)
    (opts : ExportOptions) (steps : List Nat) : StartOutcome :=
  if hasStartEl && hasOptionsEl then
    let r := startexport ui opts steps
    { emitted := r.1, outcome := r.2.map some, warned := false }
  else
    { emitted := [], outcome := some none, warned := true }

/-- One tick increment of the export ticker:
`Math.ceil(Math.random() * 15)` (src/export.js line 278), as a function of
the value drawn from `Math.random()`, which lies in `[0, 1)`. -/
def randStep (r : ℚ) : Nat :=
  Nat.ceil (r * 15)

/-- The export percent after `n` ticks when the ticker never stops, as a
function of the per-tick increments: `percent` starts at 0 and each tick
performs `percent = Math.min(100, percent + step)`
(src/export.js lines 256 and 278). -/
def percentAfter (step : Nat → Nat) : Nat → Nat
  | 0 => 0
  | n + 1 => min 100 (percentAfter step n + step n)

/- ### Helper lemmas for the export ticker -/

theorem runTicks_cons (percent s : Nat) (rest : List Nat) :
    runTicks percent (s :: rest) =
      if 100 ≤ percent + s then ([min 100 (percent + s)], true)
      else (min 100 (percent + s) :: (runTicks (min 100 (percent + s)) rest).1,
            (runTicks (min 100 (percent + s)) rest).2) := by
  simp only [runTicks]
  by_cases h : 100 ≤ percent + s
  · rw [if_pos (show 100 ≤ min 100 (percent + s) by omega), if_pos h]
  · rw [if_neg (show ¬100 ≤ min 100 (percent + s) by omega), if_neg h]

theorem runTicks_sorted_bounds (steps : List Nat) :
    ∀ percent, percent ≤ 100 →
      (runTicks percent steps).1.Sorted (· ≤ ·) ∧
      ∀ p ∈ (runTicks percent steps).1, percent ≤ p ∧ p ≤ 100 := by
  induction steps with
  | nil => intro percent _; simp [runTicks]
  | cons s rest ih =>
    intro percent hper
    by_cases hp : 100 ≤ percent + s
    · simp only [runTicks_cons, if_pos hp]
      constructor
      · simp
      · intro p hmem
        simp only [List.mem_singleton] at hmem
        subst hmem
        omega
    · simp only [runTicks_cons, if_neg hp]
      obtain ⟨ihs, ihb⟩ := ih (min 100 (percent + s)) (by omega)
      refine ⟨?_, ?_⟩
      · exact List.sorted_cons.2 ⟨fun b hb => (ihb b hb).1, ihs⟩
      · intro p hmem
        rcases List.mem_cons.1 hmem with rfl | hmem
        · omega
        · have := ihb p hmem
          omega

theorem runTicks_done_getLast (steps : List Nat) :
    ∀ percent, (runTicks percent steps).2 = true →
      (runTicks percent steps).1.getLast? = some 100 := by
  induction steps with
  | nil => intro percent h; simp [runTicks] at h
  | cons s rest ih =>
    intro percent h
    by_cases hp : 100 ≤ percent + s
    · simp only [runTicks_cons, if_pos hp]
      have : min 100 (percent + s) = 100 := by omega
      simp [this]
    · simp only [runTicks_cons, if_neg hp] at h ⊢
      have htail := ih (min 100 (percent + s)) h
      cases hrec : (runTicks (min 100 (percent + s)) rest).1 with
      | nil => rw [hrec] at htail; simp at htail
      | cons a as =>
        rw [List.getLast?_cons_cons]
        rw [hrec] at htail
        exact htail

theorem runTicks_append_of_done (steps : List Nat) :
    ∀ percent extra, (runTicks percent steps).2 = true →
      runTicks percent (steps ++ extra) = runTicks percent steps := by
  induction steps with
  | nil => intro percent extra h; simp [runTicks] at h
  | cons s rest ih =>
    intro percent extra h
    by_cases hp : 100 ≤ percent + s
    · simp only [List.cons_append, runTicks_cons, if_pos hp]
    · simp only [List.cons_append, runTicks_cons, if_neg hp] at h ⊢
      rw [ih (min 100 (percent + s)) extra h]

theorem buildFiles_eq_product (ps fs : List String) :
    buildFiles ps fs = (ps ×ˢ fs).map fun q =>
      { product := q.1, format := q.2, filename := q.1 ++ "." ++ q.2 } := by
  induction ps with
  | nil => simp [buildFiles]
  | cons p ps ih =>
    simp only [buildFiles, List.flatMap_cons, List.product_cons, List.map_append,
      List.map_map] at ih ⊢
    rw [← ih]
    rfl

theorem buildFiles_length (ps fs : List String) :
    (buildFiles ps fs).length = ps.length * fs.length := by
  rw [buildFiles_eq_product, List.length_map, List.length_product]

/- ### C1: the manifest is the cartesian product, product-major -/

/-- C1: an export started through `startexport` with an explicit non-empty
products list and non-empty formats list completes (whenever its ticker
finishes) with a manifest that is exactly the cartesian product
products × formats in product-major order, each pair named
`"{product}.{format}"`, with `summary.productCount` the number of products
and `summary.fileCount` equal to products × formats, and the promise
resolves with exactly this detail. -/
theorem export_manifest_cartesian (ui : ExportUI) (opts : ExportOptions)
    (steps : List Nat) (ps fs : List String)
    (hp : opts.products = some ps) (hf : opts.formats = some fs)
    (_hps : ps ≠ []) (hfs : fs ≠ [])
    (hdone : (runTicks 0 steps).2 = true) :
    (startexport ui opts steps).2 =
      some { files := (ps ×ˢ fs).map fun q =>
               { product := q.1, format := q.2, filename := q.1 ++ "." ++ q.2 },
             summary := { productCount := ps.length,
                          fileCount := ps.length * fs.length,
                          formats := fs } } := by
  have hrp : resolvedProducts ui opts = ps := by
    simp [resolvedProducts, hp]
  have hrf : resolvedFormats ui opts = fs := by
    simp [resolvedFormats, hf, List.isEmpty_iff, hfs]
  simp only [startexport, hdone, if_true, hrp, hrf, buildFiles_eq_product,
    buildFiles_length]
  rw [← buildFiles_eq_product, buildFiles_length]

/-- C1 witness: products `["shirt","mug"]` and formats `["png","pdf"]` with
a single tick of step 100 resolve with exactly the four files shirt.png,
shirt.pdf, mug.png, mug.pdf, productCount 2 and fileCount 4. -/
theorem export_manifest_cartesian_witness :
    (startexport ⟨[], []⟩ ⟨some ["shirt", "mug"], some ["png", "pdf"]⟩ [100]).2 =
      some { files := [⟨"shirt", "png", "shirt.png"⟩, ⟨"shirt", "pdf", "shirt.pdf"⟩,
                       ⟨"mug", "png", "mug.png"⟩, ⟨"mug", "pdf", "mug.pdf"⟩],
             summary := { productCount := 2, fileCount := 4,
                          formats := ["png", "pdf"] } } := by
  have h := export_manifest_cartesian ⟨[], []⟩
    ⟨some ["shirt", "mug"], some ["png", "pdf"]⟩ [100]
    ["shirt", "mug"] ["png", "pdf"] rfl rfl (by decide) (by decide) rfl
  rw [h]
  rfl

/- ### C3: emitted percents are monotone, capped, end at 100, and stop -/

/-- C3: over any completed export run, the emitted `mm:export:progress`
percents are non-decreasing, never exceed 100, the final emitted percent is
exactly 100, and ticks scheduled after the terminal one produce no further
events (the interval is cleared at the terminal tick). -/
theorem export_progress_contract (steps : List Nat)
    (hdone : (runTicks 0 steps).2 = true) :
    (runTicks 0 steps).1.Sorted (· ≤ ·) ∧
    (∀ p ∈ (runTicks 0 steps).1, p ≤ 100) ∧
    (runTicks 0 steps).1.getLast? = some 100 ∧
    ∀ extra, runTicks 0 (steps ++ extra) = runTicks 0 steps := by
  obtain ⟨hs, hb⟩ := runTicks_sorted_bounds steps 0 (by omega)
  exact ⟨hs, fun p hp => (hb p hp).2, runTicks_done_getLast steps 0 hdone,
    fun extra => runTicks_append_of_done steps 0 extra hdone⟩

/-- C3 witness: the run with steps 60 and 50 emits `[60, 100]`: sorted,
capped at 100, last exactly 100, and appending further steps changes
nothing. -/
theorem export_progress_contract_witness :
    (runTicks 0 [60, 50]).1.getLast? = some 100 ∧
    runTicks 0 ([60, 50] ++ [7]) = runTicks 0 [60, 50] :=
  ⟨(export_progress_contract [60, 50] rfl).2.2.1,
   (export_progress_contract [60, 50] rfl).2.2.2 [7]⟩

/- ### C9: missing export anchors degrade to a warning no-op -/

/-- C9: when the page lacks the `[data-mm-export-start]` or
`[data-mm-export-options]` anchor, the start function returned by
`initexport` resolves immediately (no ticks) with `null` for every options
argument, emits a console warning, and never throws. -/
theorem initexport_missing_anchor_noop (hasStartEl hasOptionsEl : Bool)
    (ui : ExportUI) (opts : ExportOptions) (steps : List Nat)
    (h : hasStartEl = false ∨ hasOptionsEl = false) :
    initexport hasStartEl hasOptionsEl ui opts steps =
      { emitted := [], outcome := some none, warned := true } := by
  rcases h with rfl | rfl
  · simp [initexport]
  · simp [initexport]

/-- C9 witness: with the start anchor absent, a fully populated options
object still yields the immediate null resolution plus warning. -/
theorem initexport_missing_anchor_noop_witness :
    initexport false true ⟨["shirt"], ["png"]⟩
        ⟨some ["shirt"], some ["png"]⟩ [100] =
      { emitted := [], outcome := some none, warned := true } :=
  initexport_missing_anchor_noop false true ⟨["shirt"], ["png"]⟩
    ⟨some ["shirt"], some ["png"]⟩ [100] (Or.inl rfl)

/- ### C10: products and formats options are treated asymmetrically -/

/-- C10: `startexport` treats the two request fields asymmetrically: a
present products key is used as-is even when it is the empty list (and an
absent one falls back to the UI selection), whereas a formats key that is
empty is silently replaced by the checked formats; consequently an explicit
empty products list yields a zero-file manifest, while an explicit empty
formats list still yields files whenever products and the checked formats
are non-empty. -/
theorem export_options_asymmetry (ui : ExportUI) (opts : ExportOptions) :
    (∀ ps, opts.products = some ps → resolvedProducts ui opts = ps) ∧
    (opts.products = none → resolvedProducts ui opts = ui.selectedProducts) ∧
    (opts.formats = some [] → resolvedFormats ui opts = ui.selectedFormats) ∧
    (∀ fs, opts.formats = some fs → fs ≠ [] → resolvedFormats ui opts = fs) ∧
    (opts.products = some [] → ∀ steps d,
      (startexport ui opts steps).2 = some d →
        d.files = [] ∧ d.summary.fileCount = 0) ∧
    (opts.formats = some [] → resolvedProducts ui opts ≠ [] →
      ui.selectedFormats ≠ [] →
      buildFiles (resolvedProducts ui opts) (resolvedFormats ui opts) ≠ []) := by
  refine ⟨?_, ?_, ?_, ?_, ?_, ?_⟩
  · intro ps hps; simp [resolvedProducts, hps]
  · intro hnone; simp [resolvedProducts, hnone]
  · intro hfs; simp [resolvedFormats, hfs]
  · intro fs hfs hne; simp [resolvedFormats, hfs, List.isEmpty_iff, hne]
  · intro hps steps d hd
    have hrp : resolvedProducts ui opts = [] := by simp [resolvedProducts, hps]
    simp only [startexport, hrp, buildFiles] at hd
    by_cases hdone : (runTicks 0 steps).2 = true
    · simp only [hdone, if_true, Option.some.injEq] at hd
      subst hd
      simp
    · simp only [Bool.not_eq_true] at hdone
      simp [hdone] at hd
  · intro hfs hpne hsne
    have hrf : resolvedFormats ui opts = ui.selectedFormats := by
      simp [resolvedFormats, hfs]
    rw [hrf]
    intro hcon
    have := congrArg List.length hcon
    rw [buildFiles_length] at this
    simp only [List.length_nil] at this
    rcases Nat.mul_eq_zero.1 this with h0 | h0
    · exact hpne (List.length_eq_zero.1 h0)
    · exact hsne (List.length_eq_zero.1 h0)

/-- C10 witness: with products explicitly `[]` and formats explicitly `[]`
against a UI with shirt checked in png, the resolved products are `[]`
(key used as-is), the resolved formats are the checked `["png"]`
(empty key replaced), a completed run resolves with zero files, and the
plan for the same UI with a non-empty products key is non-empty. -/
theorem export_options_asymmetry_witness :
    resolvedProducts ⟨["shirt"], ["png"]⟩ ⟨some [], some []⟩ = [] ∧
    resolvedFormats ⟨["shirt"], ["png"]⟩ ⟨some [], some []⟩ = ["png"] ∧
    ({ files := [],
       summary := { productCount := 0, fileCount := 0,
                    formats := ["png"] } } : CompleteDetail).files = [] ∧
    buildFiles (resolvedProducts ⟨["shirt"], ["png"]⟩ ⟨none, some []⟩)
      (resolvedFormats ⟨["shirt"], ["png"]⟩ ⟨none, some []⟩) ≠ [] :=
  ⟨(export_options_asymmetry ⟨["shirt"], ["png"]⟩ ⟨some [], some []⟩).1 [] rfl,
   (export_options_asymmetry ⟨["shirt"], ["png"]⟩ ⟨some [], some []⟩).2.2.1 rfl,
   ((export_options_asymmetry ⟨["shirt"], ["png"]⟩ ⟨some [], some []⟩).2.2.2.2.1
     rfl [100]
     { files := [],
       summary := { productCount := 0, fileCount := 0, formats := ["png"] } }
     rfl).1,
   (export_options_asymmetry ⟨["shirt"], ["png"]⟩ ⟨none, some []⟩).2.2.2.2.2
     rfl (by decide) (by decide)⟩

/- ### C2: termination of the export ticker -/

theorem percentAfter_le (step : Nat → Nat) (n : Nat) :
    percentAfter step n ≤ 100 := by
  cases n with
  | zero => simp [percentAfter]
  | succ m => simp [percentAfter]

theorem percentAfter_const_zero (n : Nat) :
    percentAfter (fun _ => 0) n = 0 := by
  induction n with
  | zero => rfl
  | succ m ih => simp [percentAfter, ih]

/-- C2 counterexample: `Math.random()` ranges over `[0, 1)` and may return
exactly 0, in which case the tick step `Math.ceil(0 * 15)` is 0, not the
specified minimum of 1; the draw sequence that is constantly 0 is a valid
sequence of random values under which the percent stays at 0 forever, so
the run never reaches 100 and never completes. -/
theorem export_ticker_zero_counterexample :
    ((0 : ℚ) ≤ 0 ∧ (0 : ℚ) < 1) ∧ randStep 0 = 0 ∧
    ¬∃ n, 100 ≤ percentAfter (fun _ => randStep 0) n := by
  have hz : randStep 0 = 0 := by simp [randStep]
  refine ⟨⟨le_refl 0, by norm_num⟩, hz, ?_⟩
  rintro ⟨n, hn⟩
  rw [show (fun _ : Nat => randStep 0) = fun _ : Nat => 0 from funext fun _ => hz,
    percentAfter_const_zero] at hn
  omega

theorem percentAfter_min_le (step : Nat → Nat) (h : ∀ i, 1 ≤ step i) :
    ∀ n, min 100 n ≤ percentAfter step n := by
  intro n
  induction n with
  | zero => simp [percentAfter]
  | succ m ih =>
    have hs := h m
    have hle := percentAfter_le step m
    simp only [percentAfter]
    omega

/-- C2 (amended): for every sequence of `Math.random()` draws in which each
draw is strictly positive — so each tick increments by at least 1 point,
which is what the spec's "1–15 points" describes — the export percent
reaches 100 within at most 100 ticks and the workflow completes; only the
measure-zero possibility of a draw of exactly 0 (step 0) breaks the bound,
and there is still no abort path. -/
theorem export_ticker_terminates (r : Nat → ℚ)
    (h : ∀ i, 0 < r i ∧ r i < 1) :
    percentAfter (fun i => randStep (r i)) 100 = 100 ∧
    ∃ n, 100 ≤ percentAfter (fun i => randStep (r i)) n := by
  have hstep : ∀ i, 1 ≤ randStep (r i) := by
    intro i
    have hpos : (0 : ℚ) < r i * 15 := by
      have := (h i).1
      nlinarith
    simpa [randStep] using Nat.ceil_pos.2 hpos
  have hmin := percentAfter_min_le (fun i => randStep (r i)) hstep 100
  have hle := percentAfter_le (fun i => randStep (r i)) 100
  constructor
  · omega
  · exact ⟨100, by omega⟩

/-- C2 witness: the constant draw 1/2 (step 8 each tick) satisfies the
positivity hypothesis and reaches 100. -/
theorem export_ticker_terminates_witness :
    percentAfter (fun i => randStep ((fun _ : Nat => (1 : ℚ) / 2) i)) 100 = 100 :=
  (export_ticker_terminates (fun _ => (1 : ℚ) / 2)
    (fun _ => ⟨by norm_num, by norm_num⟩)).1

/- ### Generation workflow (src/app.js lines 408-472) -/

/-- The sampled progress of `animateGenerationProgress` at a frame with the
given elapsed milliseconds: `Math.min((elapsed / duration) * 100, 100)` with
`duration = 8000` (src/app.js lines 418 and 425-426). -/
def genProgress (elapsed : Nat) : ℚ :=
  min ((elapsed : ℚ) / 8000 * 100) 100

/-- The `updateProgress` frame loop of `animateGenerationProgress`
(src/app.js lines 424-471), driven by the elapsed times observed at
successive animation frames.  Each frame emits `Math.round(progress)` as an
`mm:generate:progress` event; while `progress < 100` the loop reschedules
itself, otherwise the completion branch runs (status Complete, timeline
entry, `mm:generate:complete`) and no further frame is requested.  Returns
the emitted rounded percents and whether the run completed within the given
frames. -/
def updateProgress : List Nat → List ℤ × Bool
  | [] => ([], false)
  | e :: rest =>
    if genProgress e < 100 then
      (round (genProgress e) :: (updateProgress rest).1, (updateProgress rest).2)
    else ([round (genProgress e)], true)

theorem genProgress_le (e : Nat) : genProgress e ≤ 100 :=
  min_le_right _ _

theorem genProgress_lt_iff (e : Nat) : genProgress e < 100 ↔ e < 8000 := by
  unfold genProgress
  rw [min_lt_iff]
  constructor
  · rintro (h | h)
    · rw [div_mul_eq_mul_div, div_lt_iff (by norm_num : (0 : ℚ) < 8000)] at h
      have : (e : ℚ) < 8000 := by nlinarith
      exact_mod_cast this
    · exact absurd h (lt_irrefl _)
  · intro h
    left
    rw [div_mul_eq_mul_div, div_lt_iff (by norm_num : (0 : ℚ) < 8000)]
    have : (e : ℚ) < 8000 := by exact_mod_cast h
    nlinarith

theorem genProgress_eq_iff (e : Nat) : genProgress e = 100 ↔ 8000 ≤ e := by
  constructor
  · intro h
    by_contra hc
    have : e < 8000 := by omega
    have := (genProgress_lt_iff e).2 this
    rw [h] at this
    exact lt_irrefl _ this
  · intro h
    have h1 := genProgress_le e
    have h2 : ¬genProgress e < 100 := fun hc => by
      have := (genProgress_lt_iff e).1 hc
      omega
    exact le_antisymm h1 (not_lt.1 h2)

theorem genProgress_mono {e e' : Nat} (h : e ≤ e') :
    genProgress e ≤ genProgress e' := by
  unfold genProgress
  have hc : (e : ℚ) ≤ (e' : ℚ) := by exact_mod_cast h
  have : (e : ℚ) / 8000 * 100 ≤ (e' : ℚ) / 8000 * 100 := by gcongr
  exact min_le_min this (le_refl _)

theorem round_mono_rat {x y : ℚ} (h : x ≤ y) : round x ≤ round y := by
  rw [round_eq, round_eq]
  exact Int.floor_le_floor (by linarith)

theorem round_hundred : round (100 : ℚ) = 100 := by
  rw [show (100 : ℚ) = ((100 : ℕ) : ℚ) by norm_num, round_natCast]
  norm_num

theorem mem_updateProgress (times : List Nat) :
    ∀ x ∈ (updateProgress times).1, ∃ e ∈ times, x = round (genProgress e) := by
  induction times with
  | nil => intro x hx; simp [updateProgress] at hx
  | cons e rest ih =>
    intro x hx
    by_cases hc : genProgress e < 100
    · simp only [updateProgress, if_pos hc] at hx
      rcases List.mem_cons.1 hx with rfl | hx
      · exact ⟨e, List.mem_cons_self e rest, rfl⟩
      · obtain ⟨u, hu, hxu⟩ := ih x hx
        exact ⟨u, List.mem_cons_of_mem e hu, hxu⟩
    · simp only [updateProgress, if_neg hc, List.mem_singleton] at hx
      subst hx
      exact ⟨e, List.mem_cons_self e rest, rfl⟩

theorem updateProgress_le (times : List Nat) :
    ∀ x ∈ (updateProgress times).1, x ≤ 100 := by
  intro x hx
  obtain ⟨e, _, rfl⟩ := mem_updateProgress times x hx
  calc round (genProgress e) ≤ round (100 : ℚ) := round_mono_rat (genProgress_le e)
    _ = 100 := round_hundred

theorem updateProgress_sorted (times : List Nat)
    (h : times.Sorted (· ≤ ·)) :
    (updateProgress times).1.Sorted (· ≤ ·) := by
  induction times with
  | nil => simp [updateProgress]
  | cons e rest ih =>
    obtain ⟨hrel, hrest⟩ := List.sorted_cons.1 h
    by_cases hc : genProgress e < 100
    · simp only [updateProgress, if_pos hc]
      refine List.sorted_cons.2 ⟨?_, ih hrest⟩
      intro b hb
      obtain ⟨u, hu, rfl⟩ := mem_updateProgress rest b hb
      exact round_mono_rat (genProgress_mono (hrel u hu))
    · simp only [updateProgress, if_neg hc]
      exact List.sorted_singleton _

theorem updateProgress_done_iff (times : List Nat) :
    (updateProgress times).2 = true ↔ ∃ e ∈ times, 8000 ≤ e := by
  induction times with
  | nil => simp [updateProgress]
  | cons e rest ih =>
    by_cases hc : genProgress e < 100
    · have he : e < 8000 := (genProgress_lt_iff e).1 hc
      simp only [updateProgress, if_pos hc, ih, List.mem_cons]
      constructor
      · rintro ⟨u, hu, h8⟩
        exact ⟨u, Or.inr hu, h8⟩
      · rintro ⟨u, (rfl | hu), h8⟩
        · omega
        · exact ⟨u, hu, h8⟩
    · have he : 8000 ≤ e := by
        have := (genProgress_lt_iff e).not
        by_contra hcon
        exact hc ((genProgress_lt_iff e).2 (by omega))
      simp only [updateProgress, if_neg hc]
      simp only [true_iff]
      exact ⟨e, List.mem_cons_self e rest, he⟩

theorem updateProgress_done_getLast (times : List Nat) :
    (updateProgress times).2 = true →
      (updateProgress times).1.getLast? = some 100 := by
  induction times with
  | nil => intro h; simp [updateProgress] at h
  | cons e rest ih =>
    intro h
    by_cases hc : genProgress e < 100
    · simp only [updateProgress, if_pos hc] at h ⊢
      have htail := ih h
      cases hrec : (updateProgress rest).1 with
      | nil => rw [hrec] at htail; simp at htail
      | cons a as =>
        rw [List.getLast?_cons_cons]
        rw [hrec] at htail
        exact htail
    · simp only [updateProgress, if_neg hc]
      have h100 : genProgress e = 100 :=
        le_antisymm (genProgress_le e) (not_lt.1 hc)
      simp [h100, round_hundred]

theorem updateProgress_done_length (times : List Nat) :
    (updateProgress times).2 = true →
      (updateProgress times).1.length =
        (times.takeWhile (fun e => e < 8000)).length + 1 := by
  induction times with
  | nil => intro h; simp [updateProgress] at h
  | cons e rest ih =>
    intro h
    by_cases hc : genProgress e < 100
    · have he : e < 8000 := (genProgress_lt_iff e).1 hc
      simp only [updateProgress, if_pos hc] at h ⊢
      rw [List.takeWhile_cons_of_pos (by simpa using he)]
      simp only [List.length_cons]
      rw [ih h]
    · have he : ¬e < 8000 := fun hcon => hc ((genProgress_lt_iff e).2 hcon)
      simp only [updateProgress, if_neg hc]
      rw [List.takeWhile_cons_of_neg (by simpa using he)]
      simp

theorem updateProgress_append_of_done (times : List Nat) :
    ∀ extra, (updateProgress times).2 = true →
      updateProgress (times ++ extra) = updateProgress times := by
  induction times with
  | nil => intro extra h; simp [updateProgress] at h
  | cons e rest ih =>
    intro extra h
    by_cases hc : genProgress e < 100
    · simp only [List.cons_append, List.append_eq, updateProgress, if_pos hc] at h ⊢
      rw [ih extra h]
    · simp only [List.cons_append, updateProgress, if_neg hc]

/-- C4 counterexample: rounded progress is emitted before the `< 100` test
on the raw progress, so frames at 7960 ms and 7980 ms (raw progress 99.5
and 99.75) already emit the rounded value 100 while the loop keeps running;
the completed run over frames 7960, 7980, 8000 emits `[100, 100, 100]` —
the value 100 is emitted three times, not "exactly once". -/
theorem generation_round_counterexample :
    (updateProgress [7960, 7980, 8000]).2 = true ∧
    (updateProgress [7960, 7980, 8000]).1 = [100, 100, 100] ∧
    ((updateProgress [7960, 7980, 8000]).1.count 100 = 1 → False) := by
  have h1 : genProgress 7960 = 199 / 2 := by
    unfold genProgress
    rw [min_eq_left (by norm_num)]
    norm_num
  have h2 : genProgress 7980 = 399 / 4 := by
    unfold genProgress
    rw [min_eq_left (by norm_num)]
    norm_num
  have h3 : genProgress 8000 = 100 := by
    unfold genProgress
    norm_num
  have r1 : round ((199 : ℚ) / 2) = 100 := by
    rw [round_eq, show ((199 : ℚ) / 2 + 1 / 2) = ((100 : ℤ) : ℚ) by norm_num,
      Int.floor_intCast]
  have r2 : round ((399 : ℚ) / 4) = 100 := by
    rw [round_eq]
    exact Int.floor_eq_iff.2 ⟨by norm_num, by norm_num⟩
  have hrun : updateProgress [7960, 7980, 8000] = ([100, 100, 100], true) := by
    simp only [updateProgress]
    rw [if_pos (by rw [h1]; norm_num : genProgress 7960 < 100),
      if_pos (by rw [h2]; norm_num : genProgress 7980 < 100),
      if_neg (by rw [h3]; norm_num : ¬genProgress 8000 < 100)]
    rw [h1, h2, h3, r1, r2, round_hundred]
  rw [hrun]
  refine ⟨rfl, rfl, ?_⟩
  intro hcon
  simp [List.count_cons] at hcon

/-- C4 (amended): over any completed generation run with frames in time
order, the emitted rounded progress values are monotonically non-decreasing
and never exceed 100, the final emitted value is 100 (though the rounded
value 100 may already appear at trailing samples whose raw progress rounds
up), exactly one completion fires — at the first sample whose raw progress
`min(elapsed/8000 × 100, 100)` reaches 100, i.e. the first frame with
elapsed ≥ 8000 — all earlier samples having raw progress < 100, and frames
after the terminal sample produce no further events. -/
theorem generation_progress_contract (times : List Nat)
    (hsorted : times.Sorted (· ≤ ·))
    (hdone : (updateProgress times).2 = true) :
    (updateProgress times).1.Sorted (· ≤ ·) ∧
    (∀ x ∈ (updateProgress times).1, x ≤ 100) ∧
    (updateProgress times).1.getLast? = some 100 ∧
    (updateProgress times).1.length =
      (times.takeWhile (fun e => e < 8000)).length + 1 ∧
    (∀ e ∈ times.takeWhile (fun e => e < 8000), genProgress e < 100) ∧
    (∃ e ∈ times, genProgress e = 100) ∧
    ∀ extra, updateProgress (times ++ extra) = updateProgress times := by
  obtain ⟨e₀, he₀, h8⟩ := (updateProgress_done_iff times).1 hdone
  refine ⟨updateProgress_sorted times hsorted, updateProgress_le times,
    updateProgress_done_getLast times hdone,
    updateProgress_done_length times hdone, ?_, ?_, ?_⟩
  · intro e he
    have := List.mem_takeWhile_imp he
    exact (genProgress_lt_iff e).2 (by simpa using this)
  · exact ⟨e₀, he₀, (genProgress_eq_iff e₀).2 h8⟩
  · intro extra
    exact updateProgress_append_of_done times extra hdone

/-- C4 witness: frames at 0, 4000, 8000 ms: emitted values `[0, 50, 100]`,
completion at the third frame (the first with elapsed ≥ 8000), and a later
frame at 8016 ms produces nothing. -/
theorem generation_progress_contract_witness :
    (updateProgress [0, 4000, 8000]).1.getLast? = some 100 ∧
    (updateProgress [0, 4000, 8000]).1.length =
      ([0, 4000, 8000].takeWhile (fun e => e < 8000)).length + 1 ∧
    updateProgress ([0, 4000, 8000] ++ [8016]) = updateProgress [0, 4000, 8000] := by
  have hdone : (updateProgress [0, 4000, 8000]).2 = true :=
    (updateProgress_done_iff [0, 4000, 8000]).2
      ⟨8000, by simp, le_refl 8000⟩
  have h := generation_progress_contract [0, 4000, 8000]
    (by simp [List.sorted_cons]) hdone
  exact ⟨h.2.2.1, h.2.2.2.1, h.2.2.2.2.2.2 [8016]⟩

/- ### Bundle ledger (src/app.js lines 237-334) -/

/-- A bundle line item (src/app.js lines 249-254).  `price` is a JS number:
`none` models NaN (the result of `parseFloat` on a non-numeric string),
`some q` a finite value. -/
structure BundleItem where
  id : String
  name : String
  price : Option ℚ
  quantity : Nat
  deriving DecidableEq

/-- JS number addition with NaN propagation (`none` = NaN). -/
def jsAdd : Option ℚ → Option ℚ → Option ℚ
  | some a, some b => some (a + b)
  | _, _ => none

/-- JS number multiplication with NaN propagation (`none` = NaN). -/
def jsMul : Option ℚ → Option ℚ → Option ℚ
  | some a, some b => some (a * b)
  | _, _ => none

/-- `addToBundle(product)` (src/app.js lines 268-286): `find` locates the
first line with the same id and increments its quantity in place (price and
name untouched); otherwise the product is pushed as a new line. -/
def addToBundle : List BundleItem → BundleItem → List BundleItem
  | [], p => [p]
  | i :: rest, p =>
    if i.id = p.id then { i with quantity := i.quantity + 1 } :: rest
    else i :: addToBundle rest p

/-- `itemCount` as recomputed by `updateBundleSummary` (src/app.js
line 309): `reduce((sum, item) => sum + item.quantity, 0)`. -/
def itemCount (items : List BundleItem) : Nat :=
  items.foldl (fun sum i => sum + i.quantity) 0

/-- `totalPrice` as recomputed by `updateBundleSummary` (src/app.js
line 310): `reduce((sum, item) => sum + item.price * item.quantity, 0)`,
with NaN propagating through the JS arithmetic. -/
def totalPrice (items : List BundleItem) : Option ℚ :=
  items.foldl (fun sum i => jsAdd sum (jsMul i.price (some (i.quantity : ℚ)))) (some 0)

/-- Events observed outside the ledger: toasts (`showToast`), the
`mm:bundle:add` custom event, and `dispatchStateChange`. -/
inductive MMEvent where
  | toastShown (message : String) (kind : String)
  | bundleAdd
  | stateChange (key : String)
  deriving DecidableEq

/-- `removeFromBundle(productId)` (src/app.js lines 288-302): `findIndex`
locates the first matching line; when found it is spliced out entirely and
a toast, an `mm:bundle:add` event and a state-change dispatch fire; when no
line matches, nothing happens and no event fires. -/
def removeFromBundle : List BundleItem → String → List BundleItem × List MMEvent
  | [], _ => ([], [])
  | i :: rest, pid =>
    if i.id = pid then
      (rest, [MMEvent.toastShown ("Removed " ++ i.name ++ " from bundle") "info",
              MMEvent.bundleAdd, MMEvent.stateChange "bundle"])
    else ((i :: (removeFromBundle rest pid).1), (removeFromBundle rest pid).2)

/- ### Helper lemmas for the ledger -/

theorem itemCount_foldl_shift (l : List BundleItem) :
    ∀ a : Nat, l.foldl (fun sum i => sum + i.quantity) a = a + itemCount l := by
  induction l with
  | nil => intro a; simp [itemCount]
  | cons j t ih =>
    intro a
    simp only [itemCount, List.foldl_cons] at ih ⊢
    rw [ih (a + j.quantity), ih (0 + j.quantity)]
    omega

theorem itemCount_cons (i : BundleItem) (l : List BundleItem) :
    itemCount (i :: l) = i.quantity + itemCount l := by
  simp only [itemCount, List.foldl_cons]
  rw [itemCount_foldl_shift l (0 + i.quantity)]
  simp only [itemCount]
  omega

theorem itemCount_append (l₁ l₂ : List BundleItem) :
    itemCount (l₁ ++ l₂) = itemCount l₁ + itemCount l₂ := by
  induction l₁ with
  | nil => simp [itemCount]
  | cons i t ih =>
    simp only [List.cons_append, itemCount_cons, ih]
    omega

theorem addToBundle_of_no_match (items : List BundleItem) (p : BundleItem) :
    (∀ i ∈ items, i.id ≠ p.id) → addToBundle items p = items ++ [p] := by
  induction items with
  | nil => intro _; rfl
  | cons i rest ih =>
    intro h
    have hi : i.id ≠ p.id := h i (List.mem_cons_self i rest)
    simp only [addToBundle, if_neg hi, List.cons_append]
    rw [ih fun j hj => h j (List.mem_cons_of_mem i hj)]

theorem addToBundle_of_first_match (p : BundleItem) :
    ∀ (pre : List BundleItem) (i : BundleItem) (post : List BundleItem),
      (∀ j ∈ pre, j.id ≠ p.id) → i.id = p.id →
      addToBundle (pre ++ i :: post) p =
        pre ++ { i with quantity := i.quantity + 1 } :: post := by
  intro pre
  induction pre with
  | nil =>
    intro i post _ hi
    simp only [List.nil_append, addToBundle, if_pos hi]
  | cons j t ih =>
    intro i post hpre hi
    have hj : j.id ≠ p.id := hpre j (List.mem_cons_self j t)
    simp only [List.cons_append, List.append_eq, addToBundle, if_neg hj]
    rw [ih i post (fun k hk => hpre k (List.mem_cons_of_mem j hk)) hi]

theorem exists_first_match (p : BundleItem) :
    ∀ items : List BundleItem, (∃ i ∈ items, i.id = p.id) →
      ∃ pre i post, items = pre ++ i :: post ∧
        (∀ j ∈ pre, j.id ≠ p.id) ∧ i.id = p.id := by
  intro items
  induction items with
  | nil => rintro ⟨i, hi, _⟩; simp at hi
  | cons a rest ih =>
    rintro ⟨i, hi, hid⟩
    by_cases ha : a.id = p.id
    · exact ⟨[], a, rest, by simp, by simp, ha⟩
    · have : ∃ i ∈ rest, i.id = p.id := by
        rcases List.mem_cons.1 hi with rfl | hmem
        · exact absurd hid ha
        · exact ⟨i, hmem, hid⟩
      obtain ⟨pre, j, post, heq, hpre, hj⟩ := ih this
      exact ⟨a :: pre, j, post, by rw [heq]; rfl,
        fun k hk => by
          rcases List.mem_cons.1 hk with rfl | hk
          · exact ha
          · exact hpre k hk, hj⟩

/- ### C5: addItem merges by id, first-seen price wins, derived totals -/

/-- C5: adding an item whose id already has a line increments only that
(first matching) line's quantity by exactly 1, leaving its price and name
unchanged and ignoring the new call's price and name; adding a new id
appends a new line carrying the call's quantity (1 for every UI trigger);
and the derived `itemCount` — recomputed from scratch on every mutation —
grows by exactly 1 on a merge and by the appended quantity on an append. -/
theorem addToBundle_contract (items : List BundleItem) (p : BundleItem) :
    ((∀ i ∈ items, i.id ≠ p.id) → addToBundle items p = items ++ [p]) ∧
    (∀ pre i post, items = pre ++ i :: post → (∀ j ∈ pre, j.id ≠ p.id) →
      i.id = p.id →
      addToBundle items p = pre ++ { i with quantity := i.quantity + 1 } :: post) ∧
    ((∀ i ∈ items, i.id ≠ p.id) →
      itemCount (addToBundle items p) = itemCount items + p.quantity) ∧
    ((∃ i ∈ items, i.id = p.id) →
      itemCount (addToBundle items p) = itemCount items + 1) := by
  refine ⟨addToBundle_of_no_match items p, ?_, ?_, ?_⟩
  · intro pre i post heq hpre hi
    rw [heq]
    exact addToBundle_of_first_match p pre i post hpre hi
  · intro h
    rw [addToBundle_of_no_match items p h, itemCount_append]
    simp [itemCount_cons, itemCount]
  · intro h
    obtain ⟨pre, i, post, heq, hpre, hi⟩ := exists_first_match p items h
    rw [heq, addToBundle_of_first_match p pre i post hpre hi,
      itemCount_append, itemCount_append, itemCount_cons, itemCount_cons]
    dsimp only
    omega

/-- C5 witness: adding `{id:"a", name:"Item", price:10, quantity:1}` twice
yields the single line with quantity 2, and the recomputed `itemCount` is 2
and `totalPrice` is 20. -/
theorem addToBundle_contract_witness :
    addToBundle (addToBundle [] ⟨"a", "Item", some 10, 1⟩) ⟨"a", "Item", some 10, 1⟩ =
      [⟨"a", "Item", some 10, 2⟩] ∧
    itemCount [⟨"a", "Item", some 10, 2⟩] = 2 ∧
    totalPrice [⟨"a", "Item", some 10, 2⟩] = some 20 := by
  have h1 : addToBundle [] ⟨"a", "Item", some 10, 1⟩ = [⟨"a", "Item", some 10, 1⟩] :=
    (addToBundle_contract [] ⟨"a", "Item", some 10, 1⟩).1 (by simp)
  have h2 := (addToBundle_contract [⟨"a", "Item", some 10, 1⟩]
    ⟨"a", "Item", some 10, 1⟩).2.1 [] ⟨"a", "Item", some 10, 1⟩ [] rfl (by simp) rfl
  refine ⟨by rw [h1]; simpa using h2, by simp [itemCount], ?_⟩
  simp only [totalPrice, List.foldl_cons, List.foldl_nil, jsMul, jsAdd]
  norm_num

/- ### C7: removeItem removes the whole line; missing id is a silent no-op -/

theorem removeFromBundle_of_no_match (items : List BundleItem) (pid : String) :
    (∀ i ∈ items, i.id ≠ pid) → removeFromBundle items pid = (items, []) := by
  induction items with
  | nil => intro _; rfl
  | cons i rest ih =>
    intro h
    have hi : i.id ≠ pid := h i (List.mem_cons_self i rest)
    simp only [removeFromBundle, if_neg hi]
    rw [ih fun j hj => h j (List.mem_cons_of_mem i hj)]

theorem removeFromBundle_of_first_match (pid : String) :
    ∀ (pre : List BundleItem) (i : BundleItem) (post : List BundleItem),
      (∀ j ∈ pre, j.id ≠ pid) → i.id = pid →
      removeFromBundle (pre ++ i :: post) pid =
        (pre ++ post,
         [MMEvent.toastShown ("Removed " ++ i.name ++ " from bundle") "info",
          MMEvent.bundleAdd, MMEvent.stateChange "bundle"]) := by
  intro pre
  induction pre with
  | nil =>
    intro i post _ hi
    simp only [List.nil_append, removeFromBundle, if_pos hi]
  | cons j t ih =>
    intro i post hpre hi
    have hj : j.id ≠ pid := hpre j (List.mem_cons_self j t)
    simp only [List.cons_append, List.append_eq, removeFromBundle, if_neg hj]
    rw [ih i post (fun k hk => hpre k (List.mem_cons_of_mem j hk)) hi]

/-- C7: with an id present, `removeFromBundle` removes the entire first
matching line regardless of its quantity (full removal, not decrement) and
emits the toast, bundle and state-change notifications; with an id absent
it is a silent total no-op: the item list — and hence the recomputed
`itemCount` and `totalPrice` — is unchanged and no event of any kind is
emitted. -/
theorem removeFromBundle_contract (items : List BundleItem) (pid : String) :
    ((∀ i ∈ items, i.id ≠ pid) →
      removeFromBundle items pid = (items, []) ∧
      itemCount (removeFromBundle items pid).1 = itemCount items ∧
      totalPrice (removeFromBundle items pid).1 = totalPrice items) ∧
    (∀ pre i post, items = pre ++ i :: post → (∀ j ∈ pre, j.id ≠ pid) →
      i.id = pid →
      removeFromBundle items pid =
        (pre ++ post,
         [MMEvent.toastShown ("Removed " ++ i.name ++ " from bundle") "info",
          MMEvent.bundleAdd, MMEvent.stateChange "bundle"])) := by
  constructor
  · intro h
    have heq := removeFromBundle_of_no_match items pid h
    rw [heq]
    exact ⟨rfl, rfl, rfl⟩
  · intro pre i post heq hpre hi
    rw [heq]
    exact removeFromBundle_of_first_match pid pre i post hpre hi

/-- C7 witness: removing "a" from the quantity-2 line removes it entirely
(itemCount 0, totalPrice 0), and a second removal of "a" from the now-empty
ledger is a silent no-op with no events. -/
theorem removeFromBundle_contract_witness :
    removeFromBundle [⟨"a", "Item", some 10, 2⟩] "a" =
      ([], [MMEvent.toastShown "Removed Item from bundle" "info",
            MMEvent.bundleAdd, MMEvent.stateChange "bundle"]) ∧
    itemCount [] = 0 ∧ totalPrice [] = some 0 ∧
    removeFromBundle [] "a" = ([], []) := by
  have h1 := (removeFromBundle_contract [⟨"a", "Item", some 10, 2⟩] "a").2
    [] ⟨"a", "Item", some 10, 2⟩ [] rfl (by simp) rfl
  have h2 := ((removeFromBundle_contract [] "a").1 (by simp)).1
  exact ⟨by simpa using h1, rfl, rfl, h2⟩

/- ### C6: price parsing of add-to-bundle triggers -/

/-- The numeric value of a list of decimal digit characters, most
significant first (the accumulator loop of positional notation). -/
def valOfDigits (l : List Char) : Nat :=
  l.foldl (fun a c => 10 * a + (c.toNat - 48)) 0

/-- Modelled from the spec and ECMA-262 `parseFloat` (a platform builtin
not present in src/): parses an optional sign followed by the longest
prefix `digits [. digits]` of the string; when that prefix contains no
digit at all the result is NaN (`none`).  Exponents, `Infinity` and leading
whitespace — irrelevant to the claims — are not modelled. -/
def jsParseFloat (s : String) : Option ℚ :=
  let core : List Char → Option ℚ := fun cs =>
    let intPart := cs.takeWhile (fun c => c.isDigit)
    let rest := cs.dropWhile (fun c => c.isDigit)
    let fracPart := match rest with
      | '.' :: r => r.takeWhile (fun c => c.isDigit)
      | _ => []
    if intPart.isEmpty && fracPart.isEmpty then none
    else some ((valOfDigits intPart : ℚ) +
      (valOfDigits fracPart : ℚ) / (10 : ℚ) ^ fracPart.length)
  match s.data with
  | '-' :: rest => (core rest).map (fun q => -q)
  | '+' :: rest => core rest
  | cs => core cs

/-- The string handed to `parseFloat` by the add-to-bundle click handler:
`this.getAttribute('data-product-price') || '0'` (src/app.js line 247) —
only a missing attribute (`none`) or the empty string falls back to
`"0"`. -/
def priceAttrString (attr : Option String) : String :=
  match attr with
  | none => "0"
  | some s => if s = "" then "0" else s

/-- The price recorded on the bundle item built by `initBundleTracking`
(src/app.js lines 247-254): `parseFloat(attr || '0')`, NaN as `none`. -/
def recordedPrice (attr : Option String) : Option ℚ :=
  jsParseFloat (priceAttrString attr)

/-- C6 counterexample: the non-numeric price string "abc" does not coerce
to 0 — `parseFloat("abc")` is NaN, so the recorded price is NaN (`none`),
not 0; only a missing or empty attribute is coerced to `"0"` by the
`|| '0'` fallback. -/
theorem price_nan_counterexample :
    recordedPrice (some "abc") = none ∧ recordedPrice (some "abc") ≠ some 0 := by
  constructor
  · rfl
  · intro h
    simp [recordedPrice, priceAttrString, jsParseFloat, valOfDigits] at h

theorem totalPrice_poison (items : List BundleItem) :
    (∃ i ∈ items, i.price = none) → totalPrice items = none := by
  have hnone : ∀ (l : List BundleItem),
      l.foldl (fun sum i => jsAdd sum (jsMul i.price (some (i.quantity : ℚ)))) none
        = none := by
    intro l
    induction l with
    | nil => rfl
    | cons i rest ih =>
      simp only [List.foldl_cons]
      have : jsAdd none (jsMul i.price (some (i.quantity : ℚ))) = none := by
        cases jsMul i.price (some (i.quantity : ℚ)) <;> rfl
      rw [this, ih]
  have main : ∀ (l : List BundleItem) (acc : Option ℚ), (∃ i ∈ l, i.price = none) →
      l.foldl (fun sum i => jsAdd sum (jsMul i.price (some (i.quantity : ℚ)))) acc
        = none := by
    intro l
    induction l with
    | nil => rintro acc ⟨i, hi, _⟩; simp at hi
    | cons j rest ih =>
      rintro acc ⟨i, hi, hp⟩
      by_cases hj : j.price = none
      · simp only [List.foldl_cons, hj]
        have : jsAdd acc (jsMul none (some (j.quantity : ℚ))) = none := by
          cases acc <;> rfl
        rw [this, hnone rest]
      · rcases List.mem_cons.1 hi with rfl | hmem
        · exact absurd hp hj
        · simp only [List.foldl_cons]
          exact ih _ ⟨i, hmem, hp⟩
  exact main items (some 0)

/-- C6 (amended): the `|| '0'` fallback coerces only a missing or empty
price attribute to 0; a non-empty non-numeric string such as "abc" parses
to NaN, which is recorded as the item's price — the operation still never
fails, but any NaN-priced line makes the recomputed `totalPrice` NaN rather
than a well-defined number, while numeric strings parse to their value. -/
theorem price_parse_contract (attr : Option String) :
    (attr = none → recordedPrice attr = some 0) ∧
    (attr = some "" → recordedPrice attr = some 0) ∧
    (attr = some "abc" → recordedPrice attr = none) ∧
    (attr = some "12.5" → recordedPrice attr = some (25 / 2)) ∧
    ∀ items : List BundleItem, (∃ i ∈ items, i.price = none) →
      totalPrice items = none := by
  have hzero : jsParseFloat "0" = some 0 := by
    have h : jsParseFloat "0" =
        some ((valOfDigits ['0'] : ℚ) +
          (valOfDigits ([] : List Char) : ℚ) / (10 : ℚ) ^ (0 : Nat)) := rfl
    rw [h, show valOfDigits ['0'] = 0 from rfl,
      show valOfDigits ([] : List Char) = 0 from rfl]
    norm_num
  refine ⟨?_, ?_, ?_, ?_, totalPrice_poison⟩
  · rintro rfl
    exact hzero
  · rintro rfl
    exact hzero
  · rintro rfl
    rfl
  · rintro rfl
    have h : recordedPrice (some "12.5") =
        some ((valOfDigits ['1', '2'] : ℚ) +
          (valOfDigits ['5'] : ℚ) / (10 : ℚ) ^ (1 : Nat)) := rfl
    rw [h, show valOfDigits ['1', '2'] = 12 from rfl,
      show valOfDigits ['5'] = 5 from rfl]
    norm_num

/-- C6 witness: the non-empty cases — a missing attribute gives 0, "abc"
gives NaN, and a ledger holding a NaN-priced line has NaN total. -/
theorem price_parse_contract_witness :
    recordedPrice none = some 0 ∧
    recordedPrice (some "abc") = none ∧
    totalPrice [⟨"x", "P", none, 1⟩] = none :=
  ⟨(price_parse_contract none).1 rfl,
   (price_parse_contract (some "abc")).2.2.1 rfl,
   (price_parse_contract none).2.2.2.2 [⟨"x", "P", none, 1⟩]
     ⟨⟨"x", "P", none, 1⟩, List.mem_singleton_self _, rfl⟩⟩

/- ### Generation task creation (src/app.js lines 350-365) -/

/-- A GenerationTask as built by `startGeneration` (src/app.js
lines 352-358). -/
structure GenerationTask where
  id : String
  prompt : String
  status : String
  progress : ℚ
  startTime : Nat
  deriving DecidableEq

/-- `startGeneration(prompt)` restricted to its state effect (src/app.js
lines 350-360): builds the task with id `'gen_' + Date.now()` and pushes it
onto the generation queue; `now` is the value `Date.now()` returned at this
call. -/
def startGeneration (queue : List GenerationTask) (prompt : String)
    (now : Nat) : List GenerationTask :=
  queue ++ [{ id := "gen_" ++ Nat.repr now, prompt := prompt,
              status := "processing", progress := 0, startTime := now }]

/-- The queue after a sequence of `startGeneration` calls from the initial
empty state, each call given as its prompt and its `Date.now()` value. -/
def runStarts (calls : List (String × Nat)) : List GenerationTask :=
  calls.foldl (fun q c => startGeneration q c.1 c.2) []

/-- C8 counterexample: `Date.now()` has millisecond resolution, so two
`startGeneration` calls within the same millisecond observe the same value
(here 5) and both tasks get the identical id "gen_5" — the queue ids are
not pairwise distinct. -/
theorem generation_id_collision_counterexample :
    (runStarts [("a", 5), ("b", 5)]).map (fun t => t.id) =
      ["gen_5", "gen_5"] ∧
    ¬((runStarts [("a", 5), ("b", 5)]).map (fun t => t.id)).Nodup := by
  constructor
  · rfl
  · have h5 : (runStarts [("a", 5), ("b", 5)]).map (fun t => t.id) =
        ["gen_5", "gen_5"] := rfl
    rw [h5]
    decide

/- ### Decimal representation: `Nat.repr` is injective -/

/-- The decimal digit list of `n`, most significant first: the mathematical
specification of what `Nat.toDigitsCore` computes. -/
def decDigits (n : Nat) : List Char :=
  if n < 10 then [Nat.digitChar n]
  else decDigits (n / 10) ++ [Nat.digitChar (n % 10)]
termination_by n
decreasing_by
  exact Nat.div_lt_self (by omega) (by omega)

theorem digitChar_val : ∀ d, d < 10 → (Nat.digitChar d).toNat - 48 = d := by
  decide

theorem valOfDigits_append_digit (l : List Char) (c : Char) :
    valOfDigits (l ++ [c]) = 10 * valOfDigits l + (c.toNat - 48) := by
  simp only [valOfDigits, List.foldl_append, List.foldl_cons, List.foldl_nil]

theorem valOfDigits_decDigits : ∀ n, valOfDigits (decDigits n) = n := by
  intro n
  induction n using Nat.strong_induction_on with
  | _ n ih =>
    by_cases h : n < 10
    · rw [decDigits, if_pos h]
      simp only [valOfDigits, List.foldl_cons, List.foldl_nil]
      rw [Nat.mul_zero, Nat.zero_add]
      exact digitChar_val n h
    · rw [decDigits, if_neg h]
      rw [valOfDigits_append_digit,
        ih (n / 10) (Nat.div_lt_self (by omega) (by omega)),
        digitChar_val (n % 10) (Nat.mod_lt n (by omega))]
      omega

theorem decDigits_injective : Function.Injective decDigits := by
  intro m n h
  have := congrArg valOfDigits h
  rwa [valOfDigits_decDigits, valOfDigits_decDigits] at this

theorem toDigitsCore_eq_decDigits :
    ∀ (f n : Nat) (l : List Char), n < f →
      Nat.toDigitsCore 10 f n l = decDigits n ++ l := by
  intro f
  induction f with
  | zero => intro n l h; omega
  | succ f ih =>
    intro n l h
    by_cases h0 : n / 10 = 0
    · have hn : n < 10 := by omega
      simp only [Nat.toDigitsCore, h0, if_true]
      rw [decDigits, if_pos hn, Nat.mod_eq_of_lt hn]
      rfl
    · have h10 : 10 ≤ n := by omega
      simp only [Nat.toDigitsCore, h0, if_false]
      rw [ih (n / 10) (Nat.digitChar (n % 10) :: l) (by omega)]
      conv_rhs => rw [decDigits]
      rw [if_neg (by omega : ¬n < 10)]
      simp [List.append_assoc]

theorem repr_eq_decDigits (n : Nat) : Nat.repr n = (decDigits n).asString := by
  unfold Nat.repr Nat.toDigits
  rw [toDigitsCore_eq_decDigits (n + 1) n [] (by omega)]
  rw [List.append_nil]

theorem natRepr_injective : Function.Injective Nat.repr := by
  intro m n h
  rw [repr_eq_decDigits, repr_eq_decDigits] at h
  have hd : decDigits m = decDigits n := congrArg String.data h
  exact decDigits_injective hd

theorem genId_injective :
    Function.Injective (fun n : Nat => "gen_" ++ Nat.repr n) := by
  intro a b hab
  have hdata := congrArg String.data hab
  simp only [String.data_append] at hdata
  have := List.append_cancel_left hdata
  have hrepr : Nat.repr a = Nat.repr b := by
    cases hra : Nat.repr a with
    | mk da =>
      cases hrb : Nat.repr b with
      | mk db =>
        rw [hra, hrb] at this
        simp only at this
        rw [this]
  exact natRepr_injective hrepr

theorem runStarts_map_id (calls : List (String × Nat)) :
    ∀ q : List GenerationTask,
      ((calls.foldl (fun q c => startGeneration q c.1 c.2) q).map fun t => t.id) =
        (q.map fun t => t.id) ++ calls.map fun c => "gen_" ++ Nat.repr c.2 := by
  induction calls with
  | nil => intro q; simp
  | cons c rest ih =>
    intro q
    simp only [List.foldl_cons, List.map_cons]
    rw [ih (startGeneration q c.1 c.2)]
    simp [startGeneration]

/-- C8 (amended): task ids are fresh as long as the `Date.now()` values at
the calls are pairwise distinct: the id `'gen_' + Date.now()` determines
the timestamp, so any queue built from calls with pairwise-distinct
timestamps has pairwise-distinct ids.  Calls landing in the same
millisecond — which concurrent starts can do — share one id. -/
theorem generation_ids_fresh (calls : List (String × Nat))
    (h : (calls.map Prod.snd).Nodup) :
    ((runStarts calls).map fun t => t.id).Nodup := by
  rw [runStarts, runStarts_map_id calls []]
  simp only [List.map_nil, List.nil_append]
  have heq : (calls.map fun c => "gen_" ++ Nat.repr c.2) =
      (calls.map Prod.snd).map fun n => "gen_" ++ Nat.repr n := by
    rw [List.map_map]
    rfl
  rw [heq]
  exact h.map genId_injective

/-- C8 witness: two starts in distinct milliseconds (1 and 2) yield a queue
with pairwise-distinct ids. -/
theorem generation_ids_fresh_witness :
    ((runStarts [("a", 1), ("b", 2)]).map fun t => t.id).Nodup :=
  generation_ids_fresh [("a", 1), ("b", 2)] (by decide)
